import Mathlib

/-!
Verification of the concurrency core of the GooglePhotosDownloader repository:
the priority queue, the bounded-concurrency scheduler (ParallelProcessor),
the exponential backoff retry wrapper, and the event emitter.

Machine integers of the host language are modelled as Int or Nat (priorities,
delays, concurrency bounds are small integers in the program, far from any
overflow boundary). Asynchronous operations are modelled by their eventual
outcome (Except), and the single-threaded event-loop interleavings of the
host are modelled as explicit step sequences over a scheduler state.
-/

/-! ## Priority queue

Modelled from the spec: the Queue class (src/utils/queue.ts) is imported by
the ParallelProcessor and other modules but its implementation file is not in
the source tree.  Modelled from spec section 4.2: addItem appends an entry and
increments a lifetime counter; nextItem returns and removes the entry with the
numerically smallest priority among pending entries, equal priorities broken
by original insertion order (stable FIFO). The seq field records insertion
order: entries are stamped with a monotonically increasing counter. -/
structure QEntry (α : Type) where
  item : α
  priority : Int
  seq : Nat
deriving Repr

/-- Queue state: pending entries in insertion order plus the insertion
counter used to stamp each accepted entry. -/
structure Queue (α : Type) where
  pending : List (QEntry α)
  nextSeq : Nat

/-- The empty queue. -/
def Queue.empty {α : Type} : Queue α := ⟨[], 0⟩

/-- Modelled from the spec: addItem appends the entry and stamps it with the
next insertion sequence number (exclusion filters are not exercised by the
claims and are omitted: no filter is registered). -/
def Queue.addItem {α : Type} (q : Queue α) (x : α) (p : Int) : Queue α :=
  ⟨q.pending ++ [⟨x, p, q.nextSeq⟩], q.nextSeq + 1⟩

/-- Modelled from the spec: extract the entry with the numerically smallest
priority; among equal priorities the earliest entry in the list wins
(stable FIFO tie-break). Returns the entry and the remaining list. -/
def extractMin {α : Type} : List (QEntry α) → Option (QEntry α × List (QEntry α))
  | [] => none
  | e :: es =>
    match extractMin es with
    | none => some (e, es)
    | some (m, rest) =>
      if m.priority < e.priority then some (m, e :: rest) else some (e, es)

/-- Modelled from the spec: nextItem returns and removes the minimal entry. -/
def Queue.nextItem {α : Type} (q : Queue α) : Option (QEntry α × Queue α) :=
  match extractMin q.pending with
  | none => none
  | some (e, rest) => some (e, ⟨rest, q.nextSeq⟩)

/-- hasItems as in the source callers: the pending list is non-empty. -/
def Queue.hasItems {α : Type} (q : Queue α) : Bool := !q.pending.isEmpty

/-- Drain loop with explicit fuel (one unit per removed entry). -/
def drainGo {α : Type} : Nat → List (QEntry α) → List (QEntry α)
  | 0, _ => []
  | n + 1, l =>
    match extractMin l with
    | none => []
    | some (e, rest) => e :: drainGo n rest

/-- Drain the queue with successive nextItem calls until it is empty. -/
def Queue.drain {α : Type} (q : Queue α) : List (QEntry α) :=
  drainGo q.pending.length q.pending

/-- Build a queue from a sequence of addItem calls, starting empty. -/
def buildQueue {α : Type} (adds : List (α × Int)) : Queue α :=
  adds.foldl (fun q xp => q.addItem xp.1 xp.2) Queue.empty

/-- Strict lexicographic order on (priority, insertion sequence). -/
def keyLt {α : Type} (a b : QEntry α) : Prop :=
  a.priority < b.priority ∨ (a.priority = b.priority ∧ a.seq < b.seq)

lemma extractMin_eq_none {α : Type} (l : List (QEntry α)) :
    extractMin l = none ↔ l = [] := by
  cases l with
  | nil => simp [extractMin]
  | cons e es =>
    simp only [extractMin]
    cases h : extractMin es with
    | none => simp
    | some p =>
      obtain ⟨m, rest⟩ := p
      by_cases hp : m.priority < e.priority <;> simp [hp]

/-- The extracted entry has minimal priority among all entries. -/
lemma extractMin_min {α : Type} (l : List (QEntry α)) (e : QEntry α)
    (rest : List (QEntry α)) (h : extractMin l = some (e, rest)) :
    ∀ x ∈ l, e.priority ≤ x.priority := by
  induction l generalizing e rest with
  | nil => simp [extractMin] at h
  | cons a as ih =>
    simp only [extractMin] at h
    cases hm : extractMin as with
    | none =>
      rw [hm] at h
      have has : as = [] := (extractMin_eq_none as).mp hm
      cases h
      subst has
      intro x hx
      simp at hx
      simp [hx]
    | some p =>
      obtain ⟨m, rest0⟩ := p
      rw [hm] at h
      by_cases hp : m.priority < a.priority
      · simp only [hp, if_pos, Option.some.injEq, Prod.mk.injEq] at h
        obtain ⟨he, hr⟩ := h
        subst he
        intro x hx
        rcases List.mem_cons.mp hx with hxa | hxas
        · subst hxa; exact le_of_lt hp
        · exact ih m rest0 hm x hxas
      · simp only [hp, if_neg, not_false_iff, Option.some.injEq, Prod.mk.injEq] at h
        obtain ⟨he, hr⟩ := h
        subst he
        intro x hx
        rcases List.mem_cons.mp hx with hxa | hxas
        · subst hxa; exact le_rfl
        · exact le_trans (not_lt.mp hp) (ih m rest0 hm x hxas)

/-- Structure of extraction: the list splits around the extracted entry,
everything before it has strictly larger priority, and the remainder is the
list with that one occurrence deleted. -/
lemma extractMin_split {α : Type} (l : List (QEntry α)) (e : QEntry α)
    (rest : List (QEntry α)) (h : extractMin l = some (e, rest)) :
    ∃ l₁ l₂, l = l₁ ++ e :: l₂ ∧ rest = l₁ ++ l₂ ∧
      ∀ x ∈ l₁, e.priority < x.priority := by
  induction l generalizing e rest with
  | nil => simp [extractMin] at h
  | cons a as ih =>
    simp only [extractMin] at h
    cases hm : extractMin as with
    | none =>
      rw [hm] at h
      cases h
      exact ⟨[], as, by simp⟩
    | some p =>
      obtain ⟨m, rest0⟩ := p
      rw [hm] at h
      by_cases hp : m.priority < a.priority
      · simp only [hp, if_pos, Option.some.injEq, Prod.mk.injEq] at h
        obtain ⟨he, hr⟩ := h
        subst he
        subst hr
        obtain ⟨l₁, l₂, hsplit, hrest, hgt⟩ := ih m rest0 hm
        refine ⟨a :: l₁, l₂, by simp [hsplit], by simp [hrest], ?_⟩
        intro x hx
        rcases List.mem_cons.mp hx with hxa | hxl
        · subst hxa; exact hp
        · exact hgt x hxl
      · simp only [hp, if_neg, not_false_iff, Option.some.injEq, Prod.mk.injEq] at h
        obtain ⟨he, hr⟩ := h
        subst he
        subst hr
        exact ⟨[], as, by simp⟩

lemma extractMin_length {α : Type} (l : List (QEntry α)) (e : QEntry α)
    (rest : List (QEntry α)) (h : extractMin l = some (e, rest)) :
    rest.length + 1 = l.length := by
  obtain ⟨l₁, l₂, hsplit, hrest, -⟩ := extractMin_split l e rest h
  subst hsplit; subst hrest
  simp
  omega

lemma extractMin_sublist {α : Type} (l : List (QEntry α)) (e : QEntry α)
    (rest : List (QEntry α)) (h : extractMin l = some (e, rest)) :
    rest.Sublist l := by
  obtain ⟨l₁, l₂, hsplit, hrest, -⟩ := extractMin_split l e rest h
  subst hsplit; subst hrest
  exact List.Sublist.append_left (List.sublist_cons_self e l₂) l₁

/-- On a list whose seq stamps increase left to right, the extracted entry is
lexicographically (priority, seq)-below every remaining entry. -/
lemma extractMin_keyLt {α : Type} (l : List (QEntry α)) (e : QEntry α)
    (rest : List (QEntry α)) (hpw : l.Pairwise (fun a b => a.seq < b.seq))
    (h : extractMin l = some (e, rest)) :
    ∀ x ∈ rest, keyLt e x := by
  obtain ⟨l₁, l₂, hsplit, hrest, hgt⟩ := extractMin_split l e rest h
  have hmin := extractMin_min l e rest h
  subst hsplit; subst hrest
  intro x hx
  rcases List.mem_append.mp hx with hx1 | hx2
  · exact Or.inl (hgt x hx1)
  · rcases lt_or_eq_of_le (hmin x (by simp [hx2])) with hlt | heq
    · exact Or.inl hlt
    · refine Or.inr ⟨heq, ?_⟩
      have := (List.pairwise_append.mp hpw).2.1
      exact (List.pairwise_cons.mp this).1 x hx2

lemma drainGo_subset {α : Type} :
    ∀ (n : Nat) (l : List (QEntry α)) (y : QEntry α), y ∈ drainGo n l → y ∈ l := by
  intro n
  induction n with
  | zero => intro l y hy; simp [drainGo] at hy
  | succ n ih =>
    intro l y hy
    simp only [drainGo] at hy
    cases h : extractMin l with
    | none => rw [h] at hy; simp at hy
    | some p =>
      obtain ⟨e, rest⟩ := p
      rw [h] at hy
      rcases List.mem_cons.mp hy with hye | hyr
      · obtain ⟨l₁, l₂, hsplit, -, -⟩ := extractMin_split l e rest h
        rw [hye, hsplit]
        simp
      · exact (extractMin_sublist l e rest h).mem (ih rest y hyr)

lemma drainGo_pairwise {α : Type} :
    ∀ (n : Nat) (l : List (QEntry α)), l.length ≤ n →
      l.Pairwise (fun a b => a.seq < b.seq) → (drainGo n l).Pairwise keyLt := by
  intro n
  induction n with
  | zero => intro l _ _; simp [drainGo]
  | succ n ih =>
    intro l hlen hpw
    simp only [drainGo]
    cases h : extractMin l with
    | none => simp
    | some p =>
      obtain ⟨e, rest⟩ := p
      have hsub := extractMin_sublist l e rest h
      have hrlen : rest.length ≤ n := by
        have := extractMin_length l e rest h
        omega
      refine List.pairwise_cons.mpr ⟨?_, ih rest hrlen (hpw.sublist hsub)⟩
      intro y hy
      exact extractMin_keyLt l e rest hpw h y (drainGo_subset n rest y hy)

lemma drainGo_perm {α : Type} :
    ∀ (n : Nat) (l : List (QEntry α)), l.length ≤ n → (drainGo n l).Perm l := by
  intro n
  induction n with
  | zero =>
    intro l hlen
    have : l = [] := List.length_eq_zero.mp (Nat.le_zero.mp hlen)
    subst this; simp [drainGo]
  | succ n ih =>
    intro l hlen
    simp only [drainGo]
    cases h : extractMin l with
    | none =>
      have : l = [] := (extractMin_eq_none l).mp h
      subst this; simp
    | some p =>
      obtain ⟨e, rest⟩ := p
      have hrlen : rest.length ≤ n := by
        have := extractMin_length l e rest h
        omega
      obtain ⟨l₁, l₂, hsplit, hrest, -⟩ := extractMin_split l e rest h
      subst hsplit; subst hrest
      exact ((ih _ hrlen).cons e).trans List.perm_middle.symm

lemma foldl_addItem_map_seq {α : Type} :
    ∀ (adds : List (α × Int)) (q : Queue α),
      ((adds.foldl (fun q xp => q.addItem xp.1 xp.2) q).pending.map QEntry.seq
        = q.pending.map QEntry.seq ++ List.range' q.nextSeq adds.length) ∧
      (adds.foldl (fun q xp => q.addItem xp.1 xp.2) q).nextSeq
        = q.nextSeq + adds.length := by
  intro adds
  induction adds with
  | nil => intro q; simp
  | cons xp adds ih =>
    intro q
    obtain ⟨h1, h2⟩ := ih (q.addItem xp.1 xp.2)
    simp only [List.foldl_cons]
    constructor
    · rw [h1]
      simp [Queue.addItem, List.range'_succ]
    · rw [h2]
      simp [Queue.addItem]
      omega

lemma buildQueue_map_seq {α : Type} (adds : List (α × Int)) :
    (buildQueue adds).pending.map QEntry.seq = List.range adds.length := by
  have := (foldl_addItem_map_seq adds Queue.empty).1
  simpa [buildQueue, Queue.empty, List.range_eq_range'] using this

lemma buildQueue_pairwise_seq {α : Type} (adds : List (α × Int)) :
    (buildQueue adds).pending.Pairwise (fun a b => a.seq < b.seq) := by
  have h := buildQueue_map_seq adds
  have : ((buildQueue adds).pending.map QEntry.seq).Pairwise (· < ·) := by
    rw [h]; exact List.pairwise_lt_range _
  exact (List.pairwise_map.mp this).imp (fun hx => hx)

/-- C3: draining a priority queue built by any sequence of addItem calls
returns the entries in non-decreasing priority order, with equal-priority
entries in original insertion order (the seq stamps, which are exactly the
insertion indices 0,1,2,..., increase within each equal-priority group);
moreover the drained list is a permutation of the pending entries. -/
theorem queue_drain_sorted_stable {α : Type} (adds : List (α × Int)) :
    (buildQueue adds).pending.map QEntry.seq = List.range adds.length ∧
    ((buildQueue adds).drain).Perm (buildQueue adds).pending ∧
    ((buildQueue adds).drain).Pairwise
      (fun a b => a.priority ≤ b.priority ∧ (a.priority = b.priority → a.seq < b.seq)) := by
  refine ⟨buildQueue_map_seq adds, drainGo_perm _ _ le_rfl, ?_⟩
  have h := drainGo_pairwise (buildQueue adds).pending.length (buildQueue adds).pending
    le_rfl (buildQueue_pairwise_seq adds)
  refine h.imp ?_
  intro a b hk
  rcases hk with hlt | ⟨heq, hs⟩
  · exact ⟨le_of_lt hlt, fun he => absurd he (ne_of_lt hlt)⟩
  · exact ⟨le_of_eq heq, fun _ => hs⟩

/-! ## Bounded-concurrency scheduler
(ParallelProcessor, src/src/utils/parellel-processor.ts)

An asynchronous operation is modelled by its eventual outcome (Except);
a Processable carries that outcome, its priority, and an id naming the fresh
resolve/reject pair created by process(). Event-loop interleavings are
explicit step sequences: a process() call enqueues, a dispatch step is the
execute() loop (deferred via setImmediate after item-added), and a settle
step is the completion of runItem for one running operation (resolve or
reject, splice out of executing, then execute() again from the finally
block). -/
structure Processable (ε α : Type) where
  id : Nat
  outcome : Except ε α
  priority : Int

/-- The settlement of a Processable's future as performed by runItem:
resolve with the operation's result on success, reject with the raised
error, unmodified, on failure. -/
def settlementOf {ε α : Type} (p : Processable ε α) : Nat × Except ε α :=
  (p.id, p.outcome)

/-- Scheduler state: the pending queue, the executing array, and the record
of settlements (resolve/reject calls) made so far. -/
structure PPState (ε α : Type) where
  queue : Queue (Processable ε α)
  executing : List (Processable ε α)
  settled : List (Nat × Except ε α)

/-- The scheduler events between which state is sampled. -/
inductive PPStep (ε α : Type) where
  | processCall (p : Processable ε α)
  | dispatch
  | settle (i : Nat)

/-- The initial state of a freshly constructed ParallelProcessor. -/
def ppInit {ε α : Type} : PPState ε α := ⟨Queue.empty, [], []⟩

/-- process(): wrap the operation into a Processable and add it to the queue
at its priority (the execute() triggered by item-added runs as a later
dispatch step, via setImmediate). -/
def ParallelProcessor.process {ε α : Type} (s : PPState ε α)
    (p : Processable ε α) : PPState ε α :=
  { s with queue := s.queue.addItem p p.priority }

/-- The while loop of execute(): while the executing array is below
maxConcurrency and the queue has items, pop the next entry and push it onto
the executing array. Fuel is the number of pending entries, one per pop. -/
def dispatchLoop {ε α : Type} (maxConcurrency : Int) :
    Nat → Queue (Processable ε α) × List (Processable ε α) →
      Queue (Processable ε α) × List (Processable ε α)
  | 0, s => s
  | n + 1, (q, ex) =>
    if (ex.length : Int) < maxConcurrency ∧ q.hasItems = true then
      match q.nextItem with
      | none => (q, ex)
      | some (entry, q2) => dispatchLoop maxConcurrency n (q2, ex ++ [entry.item])
    else (q, ex)

/-- execute(): run the dispatch loop on the current queue and executing
array. -/
def ParallelProcessor.execute {ε α : Type} (maxConcurrency : Int)
    (s : PPState ε α) : PPState ε α :=
  let r := dispatchLoop maxConcurrency s.queue.pending.length (s.queue, s.executing)
  { s with queue := r.1, executing := r.2 }

/-- The splice in runItem's finally block: remove the first occurrence of
the settling item from the executing array (indexOf + splice). -/
def removeFirstById {ε α : Type} : List (Processable ε α) → Nat → List (Processable ε α)
  | [], _ => []
  | p :: ps, i => if p.id = i then ps else p :: removeFirstById ps i

/-- Completion of runItem for the running operation with the given id:
resolve/reject its future with its outcome, splice it out of the executing
array, then re-run execute() (the finally block). A settle event for an id
not currently executing is a no-op. -/
def ParallelProcessor.runItem {ε α : Type} (maxConcurrency : Int)
    (s : PPState ε α) (i : Nat) : PPState ε α :=
  match s.executing.find? (fun p => p.id = i) with
  | none => s
  | some p =>
    ParallelProcessor.execute maxConcurrency
      { queue := s.queue,
        executing := removeFirstById s.executing i,
        settled := s.settled ++ [settlementOf p] }

/-- One scheduler step. -/
def ppStep {ε α : Type} (maxConcurrency : Int) (s : PPState ε α) :
    PPStep ε α → PPState ε α
  | .processCall p => ParallelProcessor.process s p
  | .dispatch => ParallelProcessor.execute maxConcurrency s
  | .settle i => ParallelProcessor.runItem maxConcurrency s i

/-- Run a sequence of scheduler steps. -/
def ppRun {ε α : Type} (maxConcurrency : Int) (s : PPState ε α)
    (steps : List (PPStep ε α)) : PPState ε α :=
  steps.foldl (ppStep maxConcurrency) s

lemma dispatchLoop_bound {ε α : Type} (maxConcurrency : Int) :
    ∀ (n : Nat) (q : Queue (Processable ε α)) (ex : List (Processable ε α)),
      (ex.length : Int) ≤ maxConcurrency →
      (((dispatchLoop maxConcurrency n (q, ex)).2).length : Int) ≤ maxConcurrency := by
  intro n
  induction n with
  | zero => intro q ex h; exact h
  | succ n ih =>
    intro q ex h
    simp only [dispatchLoop]
    by_cases hc : (ex.length : Int) < maxConcurrency ∧ q.hasItems = true
    · simp only [hc, if_pos]
      cases hn : q.nextItem with
      | none => exact h
      | some p =>
        obtain ⟨entry, q2⟩ := p
        have : ((ex ++ [entry.item]).length : Int) ≤ maxConcurrency := by
          simp only [List.length_append, List.length_cons, List.length_nil]
          push_cast
          omega
        exact ih q2 (ex ++ [entry.item]) this
    · simp only [hc, if_neg, not_false_iff]
      exact h

lemma removeFirstById_length {ε α : Type} (l : List (Processable ε α)) (i : Nat) :
    (removeFirstById l i).length ≤ l.length := by
  induction l with
  | nil => simp [removeFirstById]
  | cons p ps ih =>
    simp only [removeFirstById]
    by_cases hp : p.id = i
    · simp [hp]
    · simp only [hp, if_neg, not_false_iff, List.length_cons]
      omega

lemma ppStep_bound {ε α : Type} (maxConcurrency : Int) (s : PPState ε α)
    (e : PPStep ε α) (h : (s.executing.length : Int) ≤ maxConcurrency) :
    (((ppStep maxConcurrency s e).executing).length : Int) ≤ maxConcurrency := by
  cases e with
  | processCall p => exact h
  | dispatch => exact dispatchLoop_bound maxConcurrency _ _ _ h
  | settle i =>
    simp only [ppStep, ParallelProcessor.runItem]
    cases hf : s.executing.find? (fun p => p.id = i) with
    | none => exact h
    | some p =>
      refine dispatchLoop_bound maxConcurrency _ _ _ ?_
      have := removeFirstById_length s.executing i
      have hcast : ((removeFirstById s.executing i).length : Int) ≤ (s.executing.length : Int) := by
        exact_mod_cast this
      exact le_trans hcast h

lemma ppRun_bound {ε α : Type} (maxConcurrency : Int) :
    ∀ (steps : List (PPStep ε α)) (s : PPState ε α),
      (s.executing.length : Int) ≤ maxConcurrency →
      (((ppRun maxConcurrency s steps).executing).length : Int) ≤ maxConcurrency := by
  intro steps
  induction steps with
  | nil => intro s h; exact h
  | cons e es ih =>
    intro s h
    exact ih (ppStep maxConcurrency s e) (ppStep_bound maxConcurrency s e h)

/-- C1: for a ParallelProcessor with a non-negative concurrency bound, after
any sequence of process calls, dispatch steps and completions, the executing
array never holds more than maxConcurrency operations. -/
theorem processor_concurrency_bound {ε α : Type} (maxConcurrency : Int)
    (hmax : 0 ≤ maxConcurrency) (steps : List (PPStep ε α)) :
    (((ppRun maxConcurrency ppInit steps).executing).length : Int) ≤ maxConcurrency := by
  refine ppRun_bound maxConcurrency steps ppInit ?_
  simpa [ppInit] using hmax

/-- Witness for the concurrency bound at maxConcurrency 5 on a concrete
run submitting three operations. -/
theorem processor_concurrency_bound_witness :
    (0 : Int) ≤ 5 ∧
    (((ppRun (ε := Unit) (α := Nat) 5 ppInit
        [.processCall ⟨0, .ok 1, 0⟩, .processCall ⟨1, .error (), 2⟩,
         .processCall ⟨2, .ok 7, 1⟩, .dispatch, .settle 0, .settle 2,
         .settle 1]).executing).length : Int) ≤ 5 :=
  ⟨by decide,
   processor_concurrency_bound 5 (by decide)
     [.processCall ⟨0, .ok 1, 0⟩, .processCall ⟨1, .error (), 2⟩,
      .processCall ⟨2, .ok 7, 1⟩, .dispatch, .settle 0, .settle 2, .settle 1]⟩

/-- The operations submitted by process calls in a step sequence, in order. -/
def submittedOf {ε α : Type} : List (PPStep ε α) → List (Processable ε α)
  | [] => []
  | .processCall p :: rest => p :: submittedOf rest
  | .dispatch :: rest => submittedOf rest
  | .settle _ :: rest => submittedOf rest

lemma dispatchLoop_stall {ε α : Type} (maxConcurrency : Int)
    (hmax : maxConcurrency ≤ 0) :
    ∀ (n : Nat) (q : Queue (Processable ε α)),
      dispatchLoop maxConcurrency n (q, ([] : List (Processable ε α))) = (q, []) := by
  intro n q
  cases n with
  | zero => rfl
  | succ n =>
    simp only [dispatchLoop]
    have hc : ¬ ((([] : List (Processable ε α)).length : Int) < maxConcurrency ∧
        q.hasItems = true) := by
      rintro ⟨h1, -⟩
      simp at h1
      omega
    rw [if_neg hc]

lemma ppRun_stall {ε α : Type} (maxConcurrency : Int) (hmax : maxConcurrency ≤ 0) :
    ∀ (steps : List (PPStep ε α)) (s : PPState ε α), s.executing = [] →
      (ppRun maxConcurrency s steps).executing = [] ∧
      (ppRun maxConcurrency s steps).settled = s.settled ∧
      ((ppRun maxConcurrency s steps).queue.pending.map QEntry.item
        = s.queue.pending.map QEntry.item ++ submittedOf steps) := by
  intro steps
  induction steps with
  | nil => intro s hex; exact ⟨hex, rfl, by simp [ppRun, submittedOf]⟩
  | cons e es ih =>
    intro s hex
    cases e with
    | processCall p =>
      have hstep : ppRun maxConcurrency s (PPStep.processCall p :: es)
          = ppRun maxConcurrency (ParallelProcessor.process s p) es := rfl
      obtain ⟨h1, h2, h3⟩ := ih (ParallelProcessor.process s p) hex
      rw [hstep]
      refine ⟨h1, h2, ?_⟩
      rw [h3]
      simp [ParallelProcessor.process, Queue.addItem, submittedOf]
    | dispatch =>
      have hd : ParallelProcessor.execute maxConcurrency s = s := by
        obtain ⟨q, ex, st⟩ := s
        simp only at hex
        subst hex
        simp only [ParallelProcessor.execute]
        rw [dispatchLoop_stall maxConcurrency hmax]
      have hstep : ppRun maxConcurrency s (PPStep.dispatch :: es)
          = ppRun maxConcurrency (ParallelProcessor.execute maxConcurrency s) es := rfl
      rw [hstep, hd]
      obtain ⟨h1, h2, h3⟩ := ih s hex
      exact ⟨h1, h2, by rw [h3]; simp [submittedOf]⟩
    | settle i =>
      have hd : ParallelProcessor.runItem maxConcurrency s i = s := by
        simp only [ParallelProcessor.runItem]
        rw [hex]
        rfl
      have hstep : ppRun maxConcurrency s (PPStep.settle i :: es)
          = ppRun maxConcurrency (ParallelProcessor.runItem maxConcurrency s i) es := rfl
      rw [hstep, hd]
      obtain ⟨h1, h2, h3⟩ := ih s hex
      exact ⟨h1, h2, by rw [h3]; simp [submittedOf]⟩

/-- C9: with maxConcurrency at most 0 (the constructor performs no
validation), no dispatch step ever moves an entry into the executing array:
every submitted operation stays enqueued in order, nothing runs, and no
future ever settles. -/
theorem processor_nonpositive_bound_stalls {ε α : Type} (maxConcurrency : Int)
    (hmax : maxConcurrency ≤ 0) (steps : List (PPStep ε α)) :
    (ppRun maxConcurrency ppInit steps).executing = [] ∧
    (ppRun maxConcurrency ppInit steps).settled = [] ∧
    ((ppRun maxConcurrency ppInit steps).queue.pending.map QEntry.item
      = submittedOf steps) := by
  obtain ⟨h1, h2, h3⟩ := ppRun_stall maxConcurrency hmax steps ppInit rfl
  exact ⟨h1, h2, by simpa [ppInit, Queue.empty] using h3⟩

/-- Witness for the stalled scheduler at maxConcurrency 0: two submissions,
a dispatch and a settle attempt leave both operations enqueued and
unsettled. -/
theorem processor_nonpositive_bound_stalls_witness :
    (0 : Int) ≤ 0 ∧
    ((ppRun (ε := Unit) (α := Nat) 0 ppInit
        [.processCall ⟨0, .ok 1, 0⟩, .dispatch, .processCall ⟨1, .ok 2, 1⟩,
         .settle 0]).executing = [] ∧
      (ppRun (ε := Unit) (α := Nat) 0 ppInit
        [.processCall ⟨0, .ok 1, 0⟩, .dispatch, .processCall ⟨1, .ok 2, 1⟩,
         .settle 0]).settled = [] ∧
      ((ppRun (ε := Unit) (α := Nat) 0 ppInit
        [.processCall ⟨0, .ok 1, 0⟩, .dispatch, .processCall ⟨1, .ok 2, 1⟩,
         .settle 0]).queue.pending.map QEntry.item
        = submittedOf [.processCall ⟨0, .ok 1, 0⟩, .dispatch,
            .processCall ⟨1, .ok 2, 1⟩, .settle 0])) :=
  ⟨by decide,
   processor_nonpositive_bound_stalls 0 (by decide)
     [.processCall ⟨0, .ok 1, 0⟩, .dispatch, .processCall ⟨1, .ok 2, 1⟩,
      .settle 0]⟩

/-! ### Settlement accounting for the scheduler -/

/-- Every settlement the state has already made or still owes: the settled
record plus the settlements of everything queued or executing. -/
def ppTokensList {ε α : Type} (s : PPState ε α) : List (Nat × Except ε α) :=
  s.settled ++
    ((s.queue.pending.map QEntry.item).map settlementOf ++ s.executing.map settlementOf)

lemma perm_take_from_queue {β : Type} (a : β) (q₁ q₂ e : List β) :
    ((q₁ ++ q₂) ++ (e ++ [a])).Perm ((q₁ ++ a :: q₂) ++ e) := by
  have h2 : ((q₁ ++ a :: q₂) ++ e).Perm (a :: ((q₁ ++ q₂) ++ e)) := by
    simpa using List.perm_middle.append_right e
  have h1 : (q₁ ++ q₂) ++ (e ++ [a]) = ((q₁ ++ q₂) ++ e) ++ [a] :=
    (List.append_assoc _ _ _).symm
  rw [h1]
  exact (List.perm_append_singleton a _).trans h2.symm

lemma perm_enqueue {β : Type} (a : β) (s q e : List β) :
    (s ++ ((q ++ [a]) ++ e)).Perm ((s ++ (q ++ e)) ++ [a]) := by
  have hin : ((q ++ [a]) ++ e).Perm (a :: (q ++ e)) := by
    simpa using (List.perm_append_singleton a q).append_right e
  refine ((List.Perm.append_left s hin).trans ?_)
  refine List.perm_middle.trans ?_
  exact (List.perm_append_singleton a _).symm

lemma perm_settle_move {β : Type} (a : β) (s q e₁ e₂ : List β) :
    ((s ++ [a]) ++ (q ++ (e₁ ++ e₂))).Perm (s ++ (q ++ (e₁ ++ a :: e₂))) := by
  have hl : ((s ++ [a]) ++ (q ++ (e₁ ++ e₂))).Perm (a :: (s ++ (q ++ (e₁ ++ e₂)))) := by
    simpa using (List.perm_append_singleton a s).append_right (q ++ (e₁ ++ e₂))
  have hr : (s ++ (q ++ (e₁ ++ a :: e₂))).Perm (a :: (s ++ (q ++ (e₁ ++ e₂)))) := by
    refine (List.Perm.append_left s ?_).trans List.perm_middle
    exact (List.Perm.append_left q List.perm_middle).trans List.perm_middle
  exact hl.trans hr.symm

lemma nextItem_some {α : Type} (q : Queue α) (e : QEntry α) (q2 : Queue α)
    (h : q.nextItem = some (e, q2)) :
    extractMin q.pending = some (e, q2.pending) := by
  simp only [Queue.nextItem] at h
  cases hx : extractMin q.pending with
  | none => rw [hx] at h; simp at h
  | some p =>
    obtain ⟨e0, rest⟩ := p
    rw [hx] at h
    simp only [Option.some.injEq, Prod.mk.injEq] at h
    obtain ⟨he, hq⟩ := h
    subst he
    rw [← hq]

lemma dispatchLoop_tokens {ε α : Type} (maxConcurrency : Int) :
    ∀ (n : Nat) (q : Queue (Processable ε α)) (ex : List (Processable ε α)),
      ((((dispatchLoop maxConcurrency n (q, ex)).1.pending.map QEntry.item).map settlementOf)
        ++ ((dispatchLoop maxConcurrency n (q, ex)).2.map settlementOf)).Perm
      (((q.pending.map QEntry.item).map settlementOf) ++ (ex.map settlementOf)) := by
  intro n
  induction n with
  | zero => intro q ex; exact List.Perm.refl _
  | succ n ih =>
    intro q ex
    simp only [dispatchLoop]
    by_cases hc : (ex.length : Int) < maxConcurrency ∧ q.hasItems = true
    · rw [if_pos hc]
      cases hn : q.nextItem with
      | none => exact List.Perm.refl _
      | some p =>
        obtain ⟨entry, q2⟩ := p
        have hx := nextItem_some q entry q2 hn
        obtain ⟨l₁, l₂, hsplit, hrest, -⟩ := extractMin_split _ _ _ hx
        refine (ih q2 (ex ++ [entry.item])).trans ?_
        rw [hsplit, hrest]
        simp only [List.map_append, List.map_cons, List.map_nil]
        exact perm_take_from_queue (settlementOf entry.item) _ _ _
    · rw [if_neg hc]

lemma execute_tokens {ε α : Type} (maxConcurrency : Int) (s : PPState ε α) :
    (ppTokensList (ParallelProcessor.execute maxConcurrency s)).Perm (ppTokensList s) := by
  simp only [ppTokensList, ParallelProcessor.execute]
  exact List.Perm.append_left s.settled (dispatchLoop_tokens maxConcurrency _ s.queue s.executing)

lemma process_tokens {ε α : Type} (s : PPState ε α) (p : Processable ε α) :
    (ppTokensList (ParallelProcessor.process s p)).Perm
      (ppTokensList s ++ [settlementOf p]) := by
  simp only [ppTokensList, ParallelProcessor.process, Queue.addItem,
    List.map_append, List.map_cons, List.map_nil]
  exact perm_enqueue (settlementOf p) s.settled _ _

lemma find?_id_split {ε α : Type} (i : Nat) :
    ∀ (l : List (Processable ε α)) (p : Processable ε α),
      l.find? (fun x => x.id = i) = some p →
      ∃ l₁ l₂, l = l₁ ++ p :: l₂ ∧ removeFirstById l i = l₁ ++ l₂ ∧ p.id = i := by
  intro l
  induction l with
  | nil => intro p h; simp at h
  | cons a as ih =>
    intro p h
    by_cases ha : a.id = i
    · have : some a = some p := by
        simpa [List.find?_cons, ha] using h
      obtain rfl : a = p := by injection this
      exact ⟨[], as, by simp, by simp [removeFirstById, ha], ha⟩
    · have h2 : as.find? (fun x => x.id = i) = some p := by
        simpa [List.find?_cons, ha] using h
      obtain ⟨l₁, l₂, hsplit, hrem, hid⟩ := ih p h2
      exact ⟨a :: l₁, l₂, by simp [hsplit], by simp [removeFirstById, ha, hrem], hid⟩

lemma runItem_tokens {ε α : Type} (maxConcurrency : Int) (s : PPState ε α) (i : Nat) :
    (ppTokensList (ParallelProcessor.runItem maxConcurrency s i)).Perm (ppTokensList s) := by
  simp only [ParallelProcessor.runItem]
  cases hf : s.executing.find? (fun p => p.id = i) with
  | none => exact List.Perm.refl _
  | some p =>
    obtain ⟨l₁, l₂, hsplit, hrem, -⟩ := find?_id_split i s.executing p hf
    refine (execute_tokens maxConcurrency _).trans ?_
    simp only [ppTokensList]
    rw [hrem, hsplit]
    simp only [List.map_append, List.map_cons]
    exact perm_settle_move (settlementOf p) s.settled _ _ _

instance {ε α : Type} [DecidableEq ε] [DecidableEq α] : DecidableEq (Except ε α) := fun a b =>
  match a, b with
  | .ok x, .ok y => decidable_of_iff (x = y) (by simp)
  | .error x, .error y => decidable_of_iff (x = y) (by simp)
  | .ok _, .error _ => isFalse (fun h => Except.noConfusion h)
  | .error _, .ok _ => isFalse (fun h => Except.noConfusion h)

/-- The number of operations accepted but not yet settled. -/
def ppCount {ε α : Type} (s : PPState ε α) : Nat :=
  s.queue.pending.length + s.executing.length

lemma dispatchLoop_count {ε α : Type} (maxConcurrency : Int) :
    ∀ (n : Nat) (q : Queue (Processable ε α)) (ex : List (Processable ε α)),
      (dispatchLoop maxConcurrency n (q, ex)).1.pending.length
        + (dispatchLoop maxConcurrency n (q, ex)).2.length
      = q.pending.length + ex.length := by
  intro n
  induction n with
  | zero => intro q ex; rfl
  | succ n ih =>
    intro q ex
    simp only [dispatchLoop]
    by_cases hc : (ex.length : Int) < maxConcurrency ∧ q.hasItems = true
    · rw [if_pos hc]
      cases hn : q.nextItem with
      | none => rfl
      | some p =>
        obtain ⟨entry, q2⟩ := p
        have hx := nextItem_some q entry q2 hn
        have hlen := extractMin_length _ _ _ hx
        have := ih q2 (ex ++ [entry.item])
        simp only [List.length_append, List.length_cons, List.length_nil] at this ⊢
        omega
    · rw [if_neg hc]

lemma execute_count {ε α : Type} (maxConcurrency : Int) (s : PPState ε α) :
    ppCount (ParallelProcessor.execute maxConcurrency s) = ppCount s := by
  simp only [ppCount, ParallelProcessor.execute]
  exact dispatchLoop_count maxConcurrency _ s.queue s.executing

lemma runItem_count {ε α : Type} (maxConcurrency : Int) (s : PPState ε α)
    (i : Nat) (p : Processable ε α)
    (hf : s.executing.find? (fun x => x.id = i) = some p) :
    ppCount (ParallelProcessor.runItem maxConcurrency s i) + 1 = ppCount s := by
  obtain ⟨l₁, l₂, hsplit, hrem, -⟩ := find?_id_split i s.executing p hf
  simp only [ParallelProcessor.runItem, hf]
  rw [execute_count]
  simp only [ppCount]
  rw [hrem, hsplit]
  simp only [List.length_append, List.length_cons]
  omega

lemma dispatchLoop_post {ε α : Type} (maxConcurrency : Int) :
    ∀ (n : Nat) (q : Queue (Processable ε α)) (ex : List (Processable ε α)),
      q.pending.length ≤ n →
      (dispatchLoop maxConcurrency n (q, ex)).1.pending = [] ∨
        ¬ (((dispatchLoop maxConcurrency n (q, ex)).2.length : Int) < maxConcurrency) := by
  intro n
  induction n with
  | zero =>
    intro q ex hlen
    exact Or.inl (List.length_eq_zero.mp (Nat.le_zero.mp hlen))
  | succ n ih =>
    intro q ex hlen
    simp only [dispatchLoop]
    by_cases hc : (ex.length : Int) < maxConcurrency ∧ q.hasItems = true
    · rw [if_pos hc]
      cases hn : q.nextItem with
      | none =>
        left
        simp only [Queue.nextItem] at hn
        cases hx : extractMin q.pending with
        | none => exact (extractMin_eq_none _).mp hx
        | some p => obtain ⟨e0, r0⟩ := p; rw [hx] at hn; simp at hn
      | some p =>
        obtain ⟨entry, q2⟩ := p
        have hx := nextItem_some q entry q2 hn
        have hlen2 := extractMin_length _ _ _ hx
        exact ih q2 (ex ++ [entry.item]) (by omega)
    · rw [if_neg hc]
      rcases not_and_or.mp hc with h1 | h2
      · exact Or.inr h1
      · left
        have : q.pending.isEmpty = true := by
          simpa [Queue.hasItems] using h2
        exact List.isEmpty_iff.mp this

lemma execute_post {ε α : Type} (maxConcurrency : Int) (hmax : 1 ≤ maxConcurrency)
    (s : PPState ε α)
    (hex : (ParallelProcessor.execute maxConcurrency s).executing = []) :
    (ParallelProcessor.execute maxConcurrency s).queue.pending = [] := by
  have h := dispatchLoop_post maxConcurrency s.queue.pending.length s.queue s.executing le_rfl
  rcases h with h | h
  · exact h
  · exfalso
    apply h
    have : (dispatchLoop maxConcurrency s.queue.pending.length
        (s.queue, s.executing)).2 = [] := hex
    rw [this]
    simp
    omega

/-- A completion schedule: repeatedly settle the head of the executing array
(each settle re-runs the dispatch loop from the finally block). -/
def mkSchedule {ε α : Type} (maxConcurrency : Int) : Nat → PPState ε α → List (PPStep ε α)
  | 0, _ => []
  | n + 1, s =>
    match s.executing with
    | [] => []
    | p :: _ => PPStep.settle p.id ::
        mkSchedule maxConcurrency n (ParallelProcessor.runItem maxConcurrency s p.id)

lemma mkSchedule_settle_only {ε α : Type} (maxConcurrency : Int) :
    ∀ (n : Nat) (s : PPState ε α) (e : PPStep ε α),
      e ∈ mkSchedule maxConcurrency n s → ∃ i, e = PPStep.settle i := by
  intro n
  induction n with
  | zero => intro s e he; simp [mkSchedule] at he
  | succ n ih =>
    intro s e he
    simp only [mkSchedule] at he
    cases hex : s.executing with
    | nil => rw [hex] at he; simp at he
    | cons p rest =>
      rw [hex] at he
      rcases List.mem_cons.mp he with h | h
      · exact ⟨p.id, h⟩
      · exact ih _ e h

lemma ppRun_mkSchedule {ε α : Type} (maxConcurrency : Int) (hmax : 1 ≤ maxConcurrency) :
    ∀ (n : Nat) (s : PPState ε α),
      (s.executing = [] → s.queue.pending = []) →
      ppCount s ≤ n →
      (ppRun maxConcurrency s (mkSchedule maxConcurrency n s)).executing = [] ∧
      (ppRun maxConcurrency s (mkSchedule maxConcurrency n s)).queue.pending = [] ∧
      ((ppRun maxConcurrency s (mkSchedule maxConcurrency n s)).settled).Perm
        (ppTokensList s) := by
  intro n
  induction n with
  | zero =>
    intro s hinv hcount
    simp only [ppCount] at hcount
    have hex : s.executing = [] := List.length_eq_zero.mp (by omega)
    have hpend : s.queue.pending = [] := List.length_eq_zero.mp (by omega)
    simp only [mkSchedule, ppRun, List.foldl_nil]
    exact ⟨hex, hpend, by simp [ppTokensList, hex, hpend]⟩
  | succ n ih =>
    intro s hinv hcount
    cases hex : s.executing with
    | nil =>
      have hpend : s.queue.pending = [] := hinv hex
      have hsch : mkSchedule maxConcurrency (n + 1) s = [] := by
        simp only [mkSchedule, hex]
      rw [hsch]
      simp only [ppRun, List.foldl_nil]
      exact ⟨hex, hpend, by simp [ppTokensList, hex, hpend]⟩
    | cons p rest =>
      have hsch : mkSchedule maxConcurrency (n + 1) s
          = PPStep.settle p.id ::
            mkSchedule maxConcurrency n (ParallelProcessor.runItem maxConcurrency s p.id) := by
        simp only [mkSchedule, hex]
      have hf : s.executing.find? (fun x => x.id = p.id) = some p := by
        rw [hex]
        exact List.find?_cons_of_pos rest (by simp)
      have hrunItem : ParallelProcessor.runItem maxConcurrency s p.id
          = ParallelProcessor.execute maxConcurrency
              { queue := s.queue,
                executing := removeFirstById s.executing p.id,
                settled := s.settled ++ [settlementOf p] } := by
        simp only [ParallelProcessor.runItem, hf]
      have hinv2 : (ParallelProcessor.runItem maxConcurrency s p.id).executing = [] →
          (ParallelProcessor.runItem maxConcurrency s p.id).queue.pending = [] := by
        rw [hrunItem]
        exact execute_post maxConcurrency hmax _
      have hcount2 : ppCount (ParallelProcessor.runItem maxConcurrency s p.id) ≤ n := by
        have h1 := runItem_count maxConcurrency s p.id p hf
        omega
      have hrun : ppRun maxConcurrency s (mkSchedule maxConcurrency (n + 1) s)
          = ppRun maxConcurrency (ParallelProcessor.runItem maxConcurrency s p.id)
              (mkSchedule maxConcurrency n (ParallelProcessor.runItem maxConcurrency s p.id)) := by
        rw [hsch]
        rfl
      rw [hrun]
      obtain ⟨h1, h2, h3⟩ := ih (ParallelProcessor.runItem maxConcurrency s p.id) hinv2 hcount2
      exact ⟨h1, h2, h3.trans (runItem_tokens maxConcurrency s p.id)⟩

lemma ppRun_submit {ε α : Type} (maxConcurrency : Int) :
    ∀ (ps : List (Processable ε α)) (s : PPState ε α),
      (ppRun maxConcurrency s (ps.map PPStep.processCall)).executing = s.executing ∧
      (ppRun maxConcurrency s (ps.map PPStep.processCall)).settled = s.settled ∧
      (ppTokensList (ppRun maxConcurrency s (ps.map PPStep.processCall))).Perm
        (ppTokensList s ++ ps.map settlementOf) ∧
      ppCount (ppRun maxConcurrency s (ps.map PPStep.processCall))
        = ppCount s + ps.length := by
  intro ps
  induction ps with
  | nil => intro s; exact ⟨rfl, rfl, by simp [ppRun], by simp [ppRun]⟩
  | cons p ps ih =>
    intro s
    have hstep : ppRun maxConcurrency s ((p :: ps).map PPStep.processCall)
        = ppRun maxConcurrency (ParallelProcessor.process s p) (ps.map PPStep.processCall) := rfl
    obtain ⟨h1, h2, h3, h4⟩ := ih (ParallelProcessor.process s p)
    rw [hstep]
    refine ⟨by rw [h1]; rfl, by rw [h2]; rfl, ?_, ?_⟩
    · refine h3.trans ?_
      have := (process_tokens s p).append_right (ps.map settlementOf)
      refine this.trans ?_
      rw [List.append_assoc]
      simp
    · rw [h4]
      simp only [ppCount, ParallelProcessor.process, Queue.addItem]
      simp
      omega

/-- C2: with a positive concurrency bound and distinct resolve/reject pairs
(one per process call), there is a completed run — all submissions, a
dispatch, then completions of running operations — after which the queue and
the executing array are empty and the recorded settlements are exactly one
per submitted operation: its future was resolved with the operation's result
if it succeeded and rejected with the raised error, unmodified, if it
failed, exactly once. -/
theorem processor_settles_exactly_once {ε α : Type} [DecidableEq ε] [DecidableEq α]
    (maxConcurrency : Int) (hmax : 1 ≤ maxConcurrency)
    (ps : List (Processable ε α)) (hids : (ps.map Processable.id).Nodup) :
    ∃ tr : List (PPStep ε α),
      (∀ e ∈ tr, e = PPStep.dispatch ∨ ∃ i, e = PPStep.settle i) ∧
      (ppRun maxConcurrency ppInit (ps.map PPStep.processCall ++ tr)).executing = [] ∧
      (ppRun maxConcurrency ppInit (ps.map PPStep.processCall ++ tr)).queue.pending = [] ∧
      ((ppRun maxConcurrency ppInit (ps.map PPStep.processCall ++ tr)).settled).Perm
        (ps.map settlementOf) ∧
      ∀ p ∈ ps,
        Multiset.count (settlementOf p)
          ((ppRun maxConcurrency ppInit (ps.map PPStep.processCall ++ tr)).settled
            : Multiset (Nat × Except ε α)) = 1 := by
  obtain ⟨hs1, hs2, hs3, hs4⟩ :=
    ppRun_submit maxConcurrency ps (ppInit (ε := ε) (α := α))
  set s₁ := ppRun maxConcurrency ppInit (ps.map PPStep.processCall) with hs₁
  set s₂ := ParallelProcessor.execute maxConcurrency s₁ with hs₂
  have hinv2 : s₂.executing = [] → s₂.queue.pending = [] :=
    execute_post maxConcurrency hmax s₁
  have hcount2 : ppCount s₂ ≤ ps.length := by
    rw [hs₂, execute_count]
    rw [hs4]
    simp [ppCount, ppInit, Queue.empty]
  have htok2 : (ppTokensList s₂).Perm (ps.map settlementOf) := by
    refine (execute_tokens maxConcurrency s₁).trans ?_
    refine hs3.trans ?_
    simp [ppTokensList, ppInit, Queue.empty]
  refine ⟨PPStep.dispatch :: mkSchedule maxConcurrency ps.length s₂, ?_, ?_⟩
  · intro e he
    rcases List.mem_cons.mp he with h | h
    · exact Or.inl h
    · exact Or.inr (mkSchedule_settle_only maxConcurrency _ _ e h)
  · have hsplitrun : ppRun maxConcurrency ppInit
        (ps.map PPStep.processCall
          ++ PPStep.dispatch :: mkSchedule maxConcurrency ps.length s₂)
        = ppRun maxConcurrency s₂ (mkSchedule maxConcurrency ps.length s₂) := by
      rw [ppRun, List.foldl_append]
      rfl
    rw [hsplitrun]
    obtain ⟨h1, h2, h3⟩ :=
      ppRun_mkSchedule maxConcurrency hmax ps.length s₂ hinv2 hcount2
    have hperm : ((ppRun maxConcurrency s₂
        (mkSchedule maxConcurrency ps.length s₂)).settled).Perm
        (ps.map settlementOf) := h3.trans htok2
    refine ⟨h1, h2, hperm, ?_⟩
    intro p hp
    have hnd : (ps.map settlementOf).Nodup := by
      refine List.Nodup.of_map Prod.fst ?_
      have hmm : (ps.map settlementOf).map Prod.fst = ps.map Processable.id := by
        rw [List.map_map]
        rfl
      rw [hmm]
      exact hids
    have hco : ((ppRun maxConcurrency s₂ (mkSchedule maxConcurrency ps.length s₂)).settled
        : Multiset (Nat × Except ε α)) = ↑(ps.map settlementOf) :=
      Multiset.coe_eq_coe.mpr hperm
    rw [hco]
    exact Multiset.count_eq_one_of_mem (Multiset.coe_nodup.mpr hnd)
      (Multiset.mem_coe.mpr (List.mem_map_of_mem settlementOf hp))

/-- Witness: two operations, one succeeding with 5 and one failing, run at
maxConcurrency 2; both futures settle exactly once with their outcomes. -/
theorem processor_settles_exactly_once_witness :
    ∃ tr : List (PPStep Unit Nat),
      (∀ e ∈ tr, e = PPStep.dispatch ∨ ∃ i, e = PPStep.settle i) ∧
      (ppRun 2 ppInit
        (([⟨0, .ok 5, 0⟩, ⟨1, .error (), 1⟩] : List (Processable Unit Nat)).map
          PPStep.processCall ++ tr)).executing = [] ∧
      (ppRun 2 ppInit
        (([⟨0, .ok 5, 0⟩, ⟨1, .error (), 1⟩] : List (Processable Unit Nat)).map
          PPStep.processCall ++ tr)).queue.pending = [] ∧
      ((ppRun 2 ppInit
        (([⟨0, .ok 5, 0⟩, ⟨1, .error (), 1⟩] : List (Processable Unit Nat)).map
          PPStep.processCall ++ tr)).settled).Perm
        (([⟨0, .ok 5, 0⟩, ⟨1, .error (), 1⟩] : List (Processable Unit Nat)).map
          settlementOf) ∧
      ∀ p ∈ ([⟨0, .ok 5, 0⟩, ⟨1, .error (), 1⟩] : List (Processable Unit Nat)),
        Multiset.count (settlementOf p)
          ((ppRun 2 ppInit
            (([⟨0, .ok 5, 0⟩, ⟨1, .error (), 1⟩] : List (Processable Unit Nat)).map
              PPStep.processCall ++ tr)).settled : Multiset (Nat × Except Unit Nat)) = 1 :=
  processor_settles_exactly_once 2 (by decide)
    [⟨0, .ok 5, 0⟩, ⟨1, .error (), 1⟩] (by decide)

/-! ## Exponential backoff retry
(ExponentialBackoffRetry, src/utils/exponential-backoff.ts)

The wrapped operation is modelled by the outcome of each attempt
(a function from attempt index to Except). A raised host-language value is
either an Error instance carrying a message or a non-Error value (string or
number); the catch block normalizes it via
lastError = error instanceof Error ? error : new Error(String(error)). -/
inductive JSVal where
  | errObj (msg : String)
  | str (s : String)
  | num (n : Int)
deriving DecidableEq, Repr

/-- String(v) for the modelled values. -/
def jsToString : JSVal → String
  | .errObj m => "Error: " ++ m
  | .str s => s
  | .num n => toString n

/-- The catch-block normalization:
error instanceof Error ? error : new Error(String(error)). -/
def normalizeError (v : JSVal) : JSVal :=
  match v with
  | .errObj _ => v
  | v => .errObj (jsToString v)

/-- Constructor parameters of ExponentialBackoffRetry. -/
structure RetryConfig where
  maxRetries : Nat
  initialDelayMs : Nat
  maxDelayMs : Nat

/-- The observable outcome of execute: the settled result, the number of
invocations of the operation, and the delays awaited between attempts. -/
structure RetryResult (α : Type) where
  result : Except JSVal α
  attempts : Nat
  delays : List Nat
deriving DecidableEq, Repr

/-- The retry loop from the current attempt with rem attempts left after it:
try the operation; on success return its result at once; on failure either
throw the normalized last error (no attempts left) or wait
min(maxDelayMs, initialDelayMs * 2 ^ attempt) and retry. -/
def executeGo {α : Type} (cfg : RetryConfig) (fn : Nat → Except JSVal α)
    (attempt : Nat) : Nat → RetryResult α
  | 0 =>
    match fn attempt with
    | .ok v => ⟨.ok v, 1, []⟩
    | .error e => ⟨.error (normalizeError e), 1, []⟩
  | rem + 1 =>
    match fn attempt with
    | .ok v => ⟨.ok v, 1, []⟩
    | .error _ =>
      let rest := executeGo cfg fn (attempt + 1) rem
      ⟨rest.result, rest.attempts + 1,
        min cfg.maxDelayMs (cfg.initialDelayMs * 2 ^ attempt) :: rest.delays⟩

/-- execute(fn): the loop for attempt in 0..maxRetries. -/
def ExponentialBackoffRetry.execute {α : Type} (cfg : RetryConfig)
    (fn : Nat → Except JSVal α) : RetryResult α :=
  executeGo cfg fn 0 cfg.maxRetries

lemma executeGo_allFail {α : Type} (cfg : RetryConfig) (errs : Nat → JSVal) :
    ∀ (rem attempt : Nat),
      executeGo (α := α) cfg (fun i => .error (errs i)) attempt rem =
        ⟨.error (normalizeError (errs (attempt + rem))), rem + 1,
          (List.range rem).map
            (fun j => min cfg.maxDelayMs (cfg.initialDelayMs * 2 ^ (attempt + j)))⟩ := by
  intro rem
  induction rem with
  | zero => intro attempt; simp [executeGo]
  | succ rem ih =>
    intro attempt
    simp only [executeGo, ih (attempt + 1)]
    have hidx : attempt + 1 + rem = attempt + (rem + 1) := by omega
    rw [hidx]
    simp only [RetryResult.mk.injEq, true_and]
    simp only [List.range_succ_eq_map, List.map_cons, List.map_map, Nat.add_zero]
    refine congrArg (List.cons _) (List.map_congr_left ?_)
    intro j hj
    have hj2 : attempt + 1 + j = attempt + (j + 1) := by omega
    simp [Function.comp, hj2]

lemma executeGo_ok {α : Type} (cfg : RetryConfig) (fn : Nat → Except JSVal α) (v : α) :
    ∀ (k rem attempt : Nat), k ≤ rem →
      fn (attempt + k) = .ok v →
      (∀ j, j < k → (fn (attempt + j)).isOk = false) →
      executeGo cfg fn attempt rem =
        ⟨.ok v, k + 1,
          (List.range k).map
            (fun j => min cfg.maxDelayMs (cfg.initialDelayMs * 2 ^ (attempt + j)))⟩ := by
  intro k
  induction k with
  | zero =>
    intro rem attempt hle hsucc hprev
    simp only [Nat.add_zero] at hsucc
    cases rem with
    | zero => simp [executeGo, hsucc]
    | succ rem => simp [executeGo, hsucc]
  | succ k ih =>
    intro rem attempt hle hsucc hprev
    cases rem with
    | zero => omega
    | succ rem =>
      have hfail : ∃ e, fn attempt = .error e := by
        have h0 := hprev 0 (Nat.succ_pos k)
        cases hf : fn (attempt + 0) with
        | ok w => rw [hf] at h0; simp [Except.isOk, Except.toBool] at h0
        | error e => exact ⟨e, by simpa using hf⟩
      obtain ⟨e, he⟩ := hfail
      have hrec := ih rem (attempt + 1) (by omega)
        (by rw [show attempt + 1 + k = attempt + (k + 1) by omega]; exact hsucc)
        (fun j hj => by
          rw [show attempt + 1 + j = attempt + (j + 1) by omega]
          exact hprev (j + 1) (by omega))
      simp only [executeGo, he, hrec]
      simp only [RetryResult.mk.injEq, true_and]
      simp only [List.range_succ_eq_map, List.map_cons, List.map_map, Nat.add_zero]
      refine congrArg (List.cons _) (List.map_congr_left ?_)
      intro j hj
      have hj2 : attempt + 1 + j = attempt + (j + 1) := by omega
      simp [Function.comp, hj2]

/-- C4: with initialDelayMs 100, maxDelayMs 800, maxRetries 5: an operation
failing on every attempt is invoked exactly 6 times, the delays before the
5 retries are 100, 200, 400, 800, 800 ms, and execute rejects after the 6th
failure; an operation first succeeding on attempt k (k at most 5) stops
immediately with that result after exactly k + 1 invocations. -/
theorem backoff_sequence_and_stop {α : Type} (errs : Nat → JSVal)
    (fn : Nat → Except JSVal α) (k : Nat) (v : α)
    (hsucc : fn k = .ok v) (hprev : ∀ j, j < k → (fn j).isOk = false)
    (hk : k ≤ 5) :
    ExponentialBackoffRetry.execute (α := α) ⟨5, 100, 800⟩ (fun i => .error (errs i)) =
      ⟨.error (normalizeError (errs 5)), 6, [100, 200, 400, 800, 800]⟩ ∧
    ExponentialBackoffRetry.execute ⟨5, 100, 800⟩ fn =
      ⟨.ok v, k + 1, (List.range k).map (fun j => min 800 (100 * 2 ^ j))⟩ := by
  constructor
  · rw [ExponentialBackoffRetry.execute, executeGo_allFail]
    norm_num
    decide
  · rw [ExponentialBackoffRetry.execute]
    have h := executeGo_ok ⟨5, 100, 800⟩ fn v k 5 0 hk (by simpa using hsucc)
      (fun j hj => by simpa using hprev j hj)
    simpa using h

/-- Witness: always-failing operation alongside one that fails twice then
returns 42 on attempt 2. -/
theorem backoff_sequence_and_stop_witness :
    ((fun i => if i < 2 then Except.error (JSVal.str "x") else Except.ok 42) 2
      = Except.ok (42 : Nat)) ∧
    (∀ j, j < 2 →
      (((fun i => if i < 2 then Except.error (JSVal.str "x") else Except.ok 42) j
        : Except JSVal Nat)).isOk = false) ∧
    2 ≤ 5 ∧
    (ExponentialBackoffRetry.execute (α := Nat) ⟨5, 100, 800⟩
        (fun i => .error ((fun _ => JSVal.str "e") i)) =
      ⟨.error (normalizeError ((fun _ => JSVal.str "e") 5)), 6,
        [100, 200, 400, 800, 800]⟩ ∧
    ExponentialBackoffRetry.execute ⟨5, 100, 800⟩
        (fun i => if i < 2 then Except.error (JSVal.str "x") else Except.ok 42) =
      ⟨.ok 42, 2 + 1, (List.range 2).map (fun j => min 800 (100 * 2 ^ j))⟩) :=
  ⟨by decide, by intro j hj; interval_cases j <;> decide, by decide,
   backoff_sequence_and_stop (fun _ => JSVal.str "e")
     (fun i => if i < 2 then Except.error (JSVal.str "x") else Except.ok 42)
     2 42 (by decide) (by intro j hj; interval_cases j <;> decide) (by decide)⟩

/-- C5 counterexample: a non-Error raised value (the string "boom") is not
propagated with its identity and type intact: the final rejection is a new
Error object wrapping its string form, not the string itself. -/
theorem backoff_wraps_nonError_cex :
    (ExponentialBackoffRetry.execute (α := Nat) ⟨0, 100, 100⟩
        (fun _ => .error (.str "boom"))).result ≠ .error (.str "boom") ∧
    (ExponentialBackoffRetry.execute (α := Nat) ⟨0, 100, 100⟩
        (fun _ => .error (.str "boom"))).result = .error (.errObj "boom") := by
  constructor
  · intro h
    simp [ExponentialBackoffRetry.execute, executeGo, normalizeError, jsToString] at h
  · rfl

/-- C5 amended: execute finally rejects with the catch-block normalization
of the last attempt's raised value: an Error instance is propagated
unmodified, while any non-Error value is replaced by a new Error whose
message is the value's string form. -/
theorem backoff_rejects_normalized_last_error {α : Type} (cfg : RetryConfig)
    (errs : Nat → JSVal) :
    (ExponentialBackoffRetry.execute (α := α) cfg (fun i => .error (errs i))).result
      = .error (normalizeError (errs cfg.maxRetries)) ∧
    ∀ m, normalizeError (.errObj m) = .errObj m := by
  constructor
  · rw [ExponentialBackoffRetry.execute, executeGo_allFail]
    simp
  · intro m; rfl

/-! ## Event emitter (EventEmitter, src/src/utils/event-emitter.ts) -/

/-- A registered listener entry for one event type, held in registration
order (the JS Set iterates in insertion order). The listener body is
modelled by a function from the payload to Except: a thrown exception is an
error value. -/
structure EmitEntry (ρ ε : Type) where
  id : Nat
  run : ρ → Except ε Unit

/-- emit: invoke each entry in registration order via listeners.forEach.
There is no try/catch around the call, so a thrown exception aborts the
iteration and propagates to the caller of emit. Returns the ids invoked, in
order, and the propagated exception if any. -/
def EventEmitter.emit {ρ ε : Type} : List (EmitEntry ρ ε) → ρ → List Nat × Option ε
  | [], _ => ([], none)
  | entry :: rest, payload =>
    match entry.run payload with
    | .ok _ =>
      let r := EventEmitter.emit rest payload
      (entry.id :: r.1, r.2)
    | .error err => ([entry.id], some err)

/-- C6 counterexample: two subscribers, the first of which throws: the
second subscriber is never invoked and the exception propagates to emit's
caller, refuting both the every-subscriber-runs and the isolation parts of
the claim. -/
theorem emit_throw_stops_iteration_cex :
    (EventEmitter.emit
      [⟨0, fun _ => Except.error (JSVal.str "boom")⟩,
       ⟨1, fun _ => Except.ok ()⟩] (0 : Nat)).1 = [0] ∧
    (EventEmitter.emit
      [⟨0, fun _ => Except.error (JSVal.str "boom")⟩,
       ⟨1, fun _ => Except.ok ()⟩] (0 : Nat)).1 ≠ [0, 1] ∧
    (EventEmitter.emit
      [⟨0, fun _ => Except.error (JSVal.str "boom")⟩,
       ⟨1, fun _ => Except.ok ()⟩] (0 : Nat)).2 = some (JSVal.str "boom") := by
  refine ⟨rfl, ?_, rfl⟩
  intro h
  simp [EventEmitter.emit] at h

/-- C6 amended: emit invokes subscribers in registration order up to and
including the first whose listener throws; that exception propagates to
emit's caller and the remaining subscribers of that emission are not
invoked; when no listener throws, every subscriber is invoked in
registration order and no exception escapes. -/
theorem emit_invokes_until_first_throw {ρ ε : Type} (payload : ρ)
    (entries l₁ l₂ : List (EmitEntry ρ ε)) (en : EmitEntry ρ ε) (err : ε)
    (hok : ∀ e ∈ entries, e.run payload = .ok ())
    (hok1 : ∀ e ∈ l₁, e.run payload = .ok ())
    (hthrow : en.run payload = .error err) :
    EventEmitter.emit entries payload = (entries.map EmitEntry.id, none) ∧
    EventEmitter.emit (l₁ ++ en :: l₂) payload
      = (l₁.map EmitEntry.id ++ [en.id], some err) := by
  constructor
  · induction entries with
    | nil => rfl
    | cons e rest ih =>
      have he : e.run payload = .ok () := hok e (by simp)
      have hr := ih (fun x hx => hok x (by simp [hx]))
      simp [EventEmitter.emit, he, hr]
  · induction l₁ with
    | nil => simp [EventEmitter.emit, hthrow]
    | cons e rest ih =>
      have he : e.run payload = .ok () := hok1 e (by simp)
      have hr := ih (fun x hx => hok1 x (by simp [hx]))
      simp [EventEmitter.emit, he, hr]

/-- Witness: a well-behaved subscriber, then a throwing one, then one more;
emit of the first list invokes everyone, emit of the second stops at the
thrower. -/
theorem emit_invokes_until_first_throw_witness :
    (∀ e ∈ ([⟨0, fun _ => Except.ok ()⟩, ⟨1, fun _ => Except.ok ()⟩]
        : List (EmitEntry Nat JSVal)), e.run 3 = .ok ()) ∧
    (∀ e ∈ ([⟨0, fun _ => Except.ok ()⟩] : List (EmitEntry Nat JSVal)),
      e.run 3 = .ok ()) ∧
    (EmitEntry.run ⟨1, fun _ => Except.error (JSVal.str "bad")⟩ (3 : Nat)
      = Except.error (JSVal.str "bad")) ∧
    (EventEmitter.emit
        ([⟨0, fun _ => Except.ok ()⟩, ⟨1, fun _ => Except.ok ()⟩]
          : List (EmitEntry Nat JSVal)) 3
      = ([0, 1], none) ∧
    EventEmitter.emit
        (([⟨0, fun _ => Except.ok ()⟩] : List (EmitEntry Nat JSVal))
          ++ ⟨1, fun _ => Except.error (JSVal.str "bad")⟩ :: [⟨2, fun _ => Except.ok ()⟩]) 3
      = ([0, 1], some (JSVal.str "bad"))) :=
  ⟨by intro e he; simp at he; rcases he with h | h <;> subst h <;> rfl,
   by intro e he; simp at he; subst he; rfl,
   rfl,
   emit_invokes_until_first_throw 3
     [⟨0, fun _ => Except.ok ()⟩, ⟨1, fun _ => Except.ok ()⟩]
     [⟨0, fun _ => Except.ok ()⟩] [⟨2, fun _ => Except.ok ()⟩]
     ⟨1, fun _ => Except.error (JSVal.str "bad")⟩ (JSVal.str "bad")
     (by intro e he; simp at he; rcases he with h | h <;> subst h <;> rfl)
     (by intro e he; simp at he; subst he; rfl)
     rfl⟩

/-! ### Debounced subscriptions (on / once with a debounce window, off) -/

/-- Subscription kinds: on (persistent) and once (one-shot). -/
inductive SubKind where
  | persistent
  | onceOnly
deriving DecidableEq, Repr

/-- State of one subscription registered with a positive debounce window:
whether its entry is still in the listeners set, the pending debounce timer
with the latest payload (if a timeout is scheduled), and the invocations of
the user listener so far. -/
structure DebState (ρ : Type) where
  registered : Bool
  pending : Option ρ
  calls : List ρ
deriving DecidableEq, Repr

/-- Event-loop events touching the subscription. -/
inductive DebEvent (ρ : Type) where
  | emit (p : ρ)
  | off
  | fire
deriving DecidableEq, Repr

/-- One step. emit runs the registered debounced wrapper, which clears any
pending timeout and re-arms it with the new payload; an unregistered entry
is not invoked. off removes the entry from the listeners set but does not
touch the already-scheduled timeout. fire is the scheduled timeout callback
running: for a once subscription the wrapped listener first calls off and
then the user listener; for a persistent one it just runs the user
listener. -/
def debStep {ρ : Type} (kind : SubKind) (s : DebState ρ) : DebEvent ρ → DebState ρ
  | .emit p => if s.registered then { s with pending := some p } else s
  | .off => { s with registered := false }
  | .fire =>
    match s.pending with
    | none => s
    | some p =>
      match kind with
      | .persistent => { s with pending := none, calls := s.calls ++ [p] }
      | .onceOnly => ⟨false, none, s.calls ++ [p]⟩

/-- Run a sequence of event-loop events. -/
def debRun {ρ : Type} (kind : SubKind) (s : DebState ρ) (evs : List (DebEvent ρ)) :
    DebState ρ :=
  evs.foldl (debStep kind) s

/-- A freshly registered subscription. -/
def debInit {ρ : Type} : DebState ρ := ⟨true, none, []⟩

/-- C10: for a registered subscription with a positive debounce window, an
off after an emission but before the window elapses removes the entry yet
leaves the scheduled timeout in place, and when it fires the listener is
still invoked with the emission's payload. -/
theorem debounce_off_does_not_cancel_timer {ρ : Type} (p : ρ) (s : DebState ρ)
    (h : s.registered = true) :
    (debRun SubKind.persistent s [.emit p, .off]).registered = false ∧
    (debRun SubKind.persistent s [.emit p, .off]).pending = some p ∧
    (debRun SubKind.persistent s [.emit p, .off, .fire]).calls = s.calls ++ [p] := by
  simp [debRun, debStep, h]

/-- Witness: payload 7 on a fresh subscription. -/
theorem debounce_off_does_not_cancel_timer_witness :
    (debInit (ρ := Nat)).registered = true ∧
    ((debRun SubKind.persistent debInit [.emit 7, .off]).registered = false ∧
    (debRun SubKind.persistent debInit [.emit 7, .off]).pending = some 7 ∧
    (debRun SubKind.persistent debInit [.emit 7, .off, .fire]).calls
      = (debInit (ρ := Nat)).calls ++ [7]) :=
  ⟨rfl, debounce_off_does_not_cancel_timer 7 debInit rfl⟩

/-- C7, what the source does at the failing input: for a once subscription
with a debounce window, after an emission the entry is still registered —
the debounced wrapper has already executed (arming the timer) while
unregistration has not happened — and an off during the window does not
prevent the user listener from being invoked when the timer fires. -/
theorem once_debounce_unregisters_late :
    (debRun SubKind.onceOnly debInit [.emit (7 : Nat)]).registered = true ∧
    (debRun SubKind.onceOnly debInit [.emit (7 : Nat)]).pending = some 7 ∧
    (debRun SubKind.onceOnly debInit [.emit (7 : Nat), .off, .fire]).calls = [7] := by
  refine ⟨rfl, rfl, rfl⟩

/-! ### waitFor -/

/-- State of one waitFor call with a timeout: whether its listener is still
subscribed, whether the timeout is still scheduled, and every resolve or
reject call made on its promise (ok payload for resolve, error for the
TimeoutError rejection). -/
structure WaitState (ρ : Type) where
  listening : Bool
  timerArmed : Bool
  settlements : List (Except Unit ρ)
deriving DecidableEq, Repr

/-- The events a waitFor call can observe: an emission on its event, or its
timeout callback running. -/
inductive WaitEvent (ρ : Type) where
  | emit (p : ρ)
  | timeout
deriving DecidableEq, Repr

/-- One step. An emission runs the listener only while it is subscribed; a
satisfying payload unsubscribes the listener, clears the timeout and
resolves. A non-satisfying payload is ignored. The timeout callback runs
only if still scheduled: it unsubscribes the listener and rejects with the
TimeoutError. -/
def waitStep {ρ : Type} (pred : ρ → Bool) (s : WaitState ρ) : WaitEvent ρ → WaitState ρ
  | .emit p =>
    if s.listening && pred p then ⟨false, false, s.settlements ++ [.ok p]⟩ else s
  | .timeout =>
    if s.timerArmed then ⟨false, false, s.settlements ++ [.error ()]⟩ else s

/-- waitFor observed over a sequence of events, starting subscribed with the
timeout scheduled. -/
def EventEmitter.waitFor {ρ : Type} (pred : ρ → Bool) (evs : List (WaitEvent ρ)) :
    WaitState ρ :=
  evs.foldl (waitStep pred) ⟨true, true, []⟩

/-- The first event that settles a waitFor: a satisfying emission or the
timeout. -/
def isTrigger {ρ : Type} (pred : ρ → Bool) : WaitEvent ρ → Bool
  | .emit p => pred p
  | .timeout => true

/-- The settlement an event produces. -/
def settlementOfEvent {ρ : Type} : WaitEvent ρ → Except Unit ρ
  | .emit p => .ok p
  | .timeout => .error ()

lemma waitFor_frozen {ρ : Type} (pred : ρ → Bool) :
    ∀ (evs : List (WaitEvent ρ)) (s : WaitState ρ),
      s.listening = false → s.timerArmed = false →
      evs.foldl (waitStep pred) s = s := by
  intro evs
  induction evs with
  | nil => intro s _ _; rfl
  | cons e es ih =>
    intro s h1 h2
    have hstep : waitStep pred s e = s := by
      cases e with
      | emit p => simp [waitStep, h1]
      | timeout => simp [waitStep, h2]
    simp only [List.foldl_cons, hstep]
    exact ih s h1 h2

/-- C8: a waitFor settles exactly according to the first trigger among the
events it observes: it resolves with the payload of the first emission
satisfying the predicate, rejects with the TimeoutError if the timeout runs
first, and records no settlement otherwise. Non-satisfying emissions are
skipped, nothing settles the promise twice — in particular a qualifying
emission after the timeout does not — and once settled the listener is
unsubscribed and the timeout cleared. -/
theorem waitFor_first_match_or_timeout {ρ : Type} (pred : ρ → Bool)
    (evs : List (WaitEvent ρ)) :
    (EventEmitter.waitFor pred evs).settlements
      = ((evs.find? (isTrigger pred)).map settlementOfEvent).toList ∧
    ((evs.find? (isTrigger pred)).isSome →
      (EventEmitter.waitFor pred evs).listening = false ∧
      (EventEmitter.waitFor pred evs).timerArmed = false) := by
  induction evs with
  | nil => exact ⟨rfl, by simp⟩
  | cons e es ih =>
    by_cases ht : isTrigger pred e = true
    · have hsettle : waitStep pred ⟨true, true, []⟩ e
          = ⟨false, false, [settlementOfEvent e]⟩ := by
        cases e with
        | emit p =>
          have hp : pred p = true := ht
          simp [waitStep, hp, settlementOfEvent]
        | timeout => simp [waitStep, settlementOfEvent]
      have hfold : EventEmitter.waitFor pred (e :: es)
          = (⟨false, false, [settlementOfEvent e]⟩ : WaitState ρ) := by
        simp only [EventEmitter.waitFor, List.foldl_cons, hsettle]
        exact waitFor_frozen pred es _ rfl rfl
      rw [hfold, List.find?_cons_of_pos _ ht]
      exact ⟨rfl, fun _ => ⟨rfl, rfl⟩⟩
    · have hskip : waitStep pred ⟨true, true, []⟩ e = ⟨true, true, []⟩ := by
        cases e with
        | emit p =>
          have hp : pred p = false := by
            simpa [isTrigger] using ht
          simp [waitStep, hp]
        | timeout => simp [isTrigger] at ht
      have hfold : EventEmitter.waitFor pred (e :: es) = EventEmitter.waitFor pred es := by
        simp only [EventEmitter.waitFor, List.foldl_cons, hskip]
      rw [hfold, List.find?_cons_of_neg _ (by simpa using ht)]
      exact ih
